import Mathlib

/-!
Verification of `scripts/add_type_safety.py`, a one-shot source rewriter that
scans TypeScript files, extracts port names from `addInput`/`addOutput` calls
and splices synthesized type parameters into `export class X extends Y {`
declarations.

The Python script works entirely by regular-expression matching.  Every
pattern it uses is deterministic under greedy matching (each repeated
character class is followed by a character outside the class), so each regex
is embedded as a deterministic scanner over `List Char`:

* `re.search pat` becomes `searchF` (try the matcher at every position, first
  hit wins);
* `re.findall pat` becomes the fuel-driven `portsF` (collect a match, resume
  scanning after its end);
* `re.sub pat repl` becomes the fuel-driven `subDeclF` (replace each
  non-overlapping match, resume after its end).

The fuel argument is always instantiated with the length of the text, which
is enough for the whole scan; this keeps every definition structurally
recursive and executable.  `\w` and `\s` are modelled on the ASCII range
(`[A-Za-z0-9_]` and `[ \t\n\r\x0b\x0c]`), matching Python's behaviour on the
ASCII source files the script processes.
-/

/-- Python's `\w` on the ASCII range: letters, digits and underscore. -/
def isW (c : Char) : Bool := c.isAlphanum || c == '_'

/-- Python's `\s` on the ASCII range: space, tab, newline, carriage return,
vertical tab and form feed. -/
def isSpaceCh (c : Char) : Bool :=
  c == ' ' || c == '\t' || c == '\n' || c == '\r' || c == '\x0b' || c == '\x0c'

/-- The character class `['\"]` used around the port name. -/
def isQuote (c : Char) : Bool := c == '\'' || c == '\"'

/-- The character class `[^>]` used inside the angle brackets. -/
def notGt (c : Char) : Bool := !(c == '>')

/-- Match a literal string at the head of `s`; `some r` leaves the rest. -/
def dropLit : List Char → List Char → Option (List Char)
  | [], s => some s
  | _ :: _, [] => none
  | l :: ls, c :: cs => if l = c then dropLit ls cs else none

/-- The literal head of the port pattern,
`this\.<method>\({` (the `{{` of the f-string is a literal brace). -/
def portLit (method : List Char) : List Char :=
  "this.".data ++ method ++ "(\x7b".data

/-- Matcher for `this\.<method>\({\s*name:\s*['\"](\w+)['\"]` anchored at the
head of `s`.  Returns the captured name and the text after the match. -/
def matchPortAt (method : List Char) (s : List Char) : Option (List Char × List Char) :=
  match dropLit (portLit method) s with
  | none => none
  | some r1 =>
    match dropLit "name:".data (r1.dropWhile isSpaceCh) with
    | none => none
    | some r3 =>
      match r3.dropWhile isSpaceCh with
      | [] => none
      | q1 :: r5 =>
        if isQuote q1 then
          let nm := r5.takeWhile isW
          if nm = [] then none
          else
            match r5.dropWhile isW with
            | [] => none
            | q2 :: r7 => if isQuote q2 then some (nm, r7) else none
        else none

/-- Matcher for `export class (\w+) extends` anchored at the head of `s`
(the pattern of `get_class_name`).  Returns the captured class name. -/
def matchClassNameAt (s : List Char) : Option (List Char) :=
  match dropLit "export class ".data s with
  | none => none
  | some r1 =>
    let x := r1.takeWhile isW
    if x = [] then none
    else
      match dropLit " extends".data (r1.dropWhile isW) with
      | none => none
      | some _ => some x

/-- Matcher for `export class \w+ extends (\w+)` anchored at the head of `s`
(the pattern of `get_base_class`).  Returns the captured base-class name. -/
def matchBaseAt (s : List Char) : Option (List Char) :=
  match dropLit "export class ".data s with
  | none => none
  | some r1 =>
    let x := r1.takeWhile isW
    if x = [] then none
    else
      match dropLit " extends ".data (r1.dropWhile isW) with
      | none => none
      | some r2 =>
        let y := r2.takeWhile isW
        if y = [] then none else some y

/-- Matcher for `extends \w+<[^>]+>` anchored at the head of `s` (the pattern
of `has_type_parameters`). -/
def matchExtendsAngleAt (s : List Char) : Option Unit :=
  match dropLit "extends ".data s with
  | none => none
  | some r1 =>
    let w := r1.takeWhile isW
    if w = [] then none
    else
      match r1.dropWhile isW with
      | [] => none
      | c2 :: r2 =>
        if c2 = '<' then
          let mid := r2.takeWhile notGt
          if mid = [] then none
          else
            match r2.dropWhile notGt with
            | [] => none
            | c3 :: _ => if c3 = '>' then some () else none
        else none

/-- Matcher for `(export class \w+ extends \w+)(\s*{)` anchored at the head
of `s` (the pattern of `inject_type_parameters`).  Returns the two groups and
the text after the match. -/
def matchDeclAt (s : List Char) : Option (List Char × List Char × List Char) :=
  match dropLit "export class ".data s with
  | none => none
  | some r1 =>
    let x := r1.takeWhile isW
    if x = [] then none
    else
      match dropLit " extends ".data (r1.dropWhile isW) with
      | none => none
      | some r2 =>
        let y := r2.takeWhile isW
        if y = [] then none
        else
          let ws := (r2.dropWhile isW).takeWhile isSpaceCh
          match (r2.dropWhile isW).dropWhile isSpaceCh with
          | [] => none
          | c3 :: after =>
            if c3 = '\x7b' then
              some ("export class ".data ++ x ++ " extends ".data ++ y,
                ws ++ ['\x7b'], after)
            else none

/-- The embedding of `re.search`: try the matcher at every position of the
text, left to right, and return the first hit. -/
def searchF {α : Type} (m : List Char → Option α) : List Char → Option α
  | [] => none
  | c :: rest =>
    match m (c :: rest) with
    | some a => some a
    | none => searchF m rest

/-- The embedding of `re.findall` for the port pattern: collect each match
and resume scanning after its end.  The fuel is always instantiated with the
length of the text, which bounds the number of steps of the scan. -/
def portsF (method : List Char) : Nat → List Char → List (List Char)
  | 0, _ => []
  | _ + 1, [] => []
  | fuel + 1, c :: rest =>
    match matchPortAt method (c :: rest) with
    | some (nm, after) => nm :: portsF method fuel after
    | none => portsF method fuel rest

/-- Embeds `extract_port_names` (source lines 17-22): all captures of
`this\.<method>\({\s*name:\s*['\"](\w+)['\"]`, in text order. -/
def extract_port_names (file_content : String) (method : String) : List String :=
  (portsF method.data file_content.data.length file_content.data).map
    (fun l => String.mk l)

/-- Embeds `get_class_name` (source lines 30-33). -/
def get_class_name (file_content : String) : Option String :=
  (searchF matchClassNameAt file_content.data).map (fun l => String.mk l)

/-- Embeds `get_base_class` (source lines 24-28). -/
def get_base_class (file_content : String) : Option String :=
  (searchF matchBaseAt file_content.data).map (fun l => String.mk l)

/-- Embeds `has_type_parameters` (source lines 35-37): whether
`extends \w+<[^>]+>` matches anywhere in the file text. -/
def has_type_parameters (file_content : String) : Bool :=
  (searchF matchExtendsAngleAt file_content.data).isSome

/-- Python's `sep.join(parts)`. -/
def joinSep (sep : String) : List String → String
  | [] => ""
  | [x] => x
  | x :: y :: ys => x ++ sep ++ joinSep sep (y :: ys)

/-- Embeds `format_type_union` (source lines 39-45). -/
def format_type_union (names : List String) : String :=
  match names with
  | [] => "never"
  | [n] => "'" ++ n ++ "'"
  | _ => joinSep " | " (names.map (fun n => "'" ++ n ++ "'"))

/-- The text placed between the angle brackets by the substitution template
`\1<\n  {input_type},\n  {output_type}\n>\2`. -/
def annot_block (it ot : List Char) : List Char :=
  "\n  ".data ++ it ++ ",\n  ".data ++ ot ++ "\n".data

/-- The full replacement for one match of the declaration pattern:
group 1, the angle-bracketed annotation block, then group 2. -/
def decl_replacement (it ot g1 g2 : List Char) : List Char :=
  g1 ++ '<' :: (annot_block it ot ++ '>' :: g2)

/-- The embedding of `re.sub` for the declaration pattern: replace every
non-overlapping match, resuming the scan after each match's end.  The fuel is
always instantiated with the length of the text. -/
def subDeclF (it ot : List Char) : Nat → List Char → List Char
  | 0, s => s
  | _ + 1, [] => []
  | fuel + 1, c :: rest =>
    match matchDeclAt (c :: rest) with
    | some (g1, g2, after) => decl_replacement it ot g1 g2 ++ subDeclF it ot fuel after
    | none => c :: subDeclF it ot fuel rest

/-- The number of non-overlapping matches the substitution scan replaces. -/
def countDeclF : Nat → List Char → Nat
  | 0, _ => 0
  | _ + 1, [] => 0
  | fuel + 1, c :: rest =>
    match matchDeclAt (c :: rest) with
    | some (_, _, after) => countDeclF fuel after + 1
    | none => countDeclF fuel rest

/-- Embeds `inject_type_parameters` (source lines 47-69). -/
def inject_type_parameters (file_content : String) (inputs outputs : List String) : String :=
  let input_type := format_type_union inputs
  let output_type := format_type_union outputs
  if has_type_parameters file_content then file_content
  else
    let modified : String :=
      String.mk (subDeclF input_type.data output_type.data
        file_content.data.length file_content.data)
    if modified = file_content then file_content else modified

/-- Embeds `is_dynamic_ports_node` (source lines 71-74). -/
def is_dynamic_ports_node (class_name : String) : Bool :=
  class_name ∈ ["MergeNode", "SplitNode"]

/-- The reserved base-class names skipped by `process_file` (source line 91). -/
def reserved_class_names : List String := ["Node", "BaseThreeNode", "TweakpaneNode"]

/-- Embeds lines 101-111 of `process_file`: the input and output port lists,
with the dynamic-port override keyed on the class name. -/
def compute_port_lists (class_name : String) (content : String) :
    List String × List String :=
  if is_dynamic_ports_node class_name then
    let inputs := ["string"]
    let outputs := extract_port_names content "addOutput"
    let outputs := if class_name = "SplitNode" then ["string"] else outputs
    (inputs, outputs)
  else
    (extract_port_names content "addInput", extract_port_names content "addOutput")

/-- The per-file outcome of `process_file`, one constructor per distinct
return path of the source (lines 81-125). -/
inductive FileOutcome where
  | noClass
  | noBase
  | reservedBase
  | alreadyTyped
  | modified (newContent : String)
  | noChange
deriving DecidableEq

/-- Embeds the body of `process_file` (source lines 76-125) as the outcome of
processing one file's text. -/
def process_file_outcome (content : String) : FileOutcome :=
  match get_class_name content with
  | none => FileOutcome.noClass
  | some class_name =>
    match get_base_class content with
    | none => FileOutcome.noBase
    | some _ =>
      if class_name ∈ reserved_class_names then FileOutcome.reservedBase
      else if has_type_parameters content then FileOutcome.alreadyTyped
      else
        let ports := compute_port_lists class_name content
        let modified := inject_type_parameters content ports.1 ports.2
        if modified ≠ content then FileOutcome.modified modified
        else FileOutcome.noChange

/-- Embeds `process_file` as a pure function: the file's content after
processing, and the boolean the source returns (`True` exactly when the file
was rewritten and written back). -/
def process_file (content : String) : String × Bool :=
  match process_file_outcome content with
  | FileOutcome.modified newContent => (newContent, true)
  | _ => (content, false)

/-- Embeds the counting loop of `main` (source lines 150-157): the number of
modified and of skipped files over a list of file contents. -/
def run_tool (files : List String) : Nat × Nat :=
  files.foldl
    (fun acc content =>
      if (process_file content).2 then (acc.1 + 1, acc.2) else (acc.1, acc.2 + 1))
    (0, 0)

/-- Result of a filesystem operation: the value, or the message of the raised
exception.  Shallow embedding of the `try`/`except` boundary of
`process_file`. -/
inductive FsResult (α : Type) where
  | ok (val : α)
  | err (msg : String)

/-- Embeds `process_file` together with its `try`/`except` boundary: the read
may fail, and when the content is to be rewritten the write may fail; either
failure is caught and the file reported unmodified.  By construction no
exception escapes. -/
def process_file_try (readRes : FsResult String) (writeRes : FsResult Unit) : Bool :=
  match readRes with
  | FsResult.err _ => false
  | FsResult.ok content =>
    match process_file_outcome content with
    | FileOutcome.modified _ =>
      match writeRes with
      | FsResult.ok _ => true
      | FsResult.err _ => false
    | _ => false

/-- The counting loop of `main` over fallible per-file filesystem access. -/
def run_tool_try (files : List (FsResult String × FsResult Unit)) : Nat × Nat :=
  files.foldl
    (fun acc f =>
      if process_file_try f.1 f.2 then (acc.1 + 1, acc.2) else (acc.1, acc.2 + 1))
    (0, 0)

/-- Collect, for every position of the text in order, the name captured by a
port-pattern match beginning at that position.  This is the specification-side
reading of the extractor's contract: all `name` fields, in first-seen text
order, duplicates retained. -/
def portNamesAll (method : List Char) : List Char → List (List Char)
  | [] => []
  | c :: rest =>
    match matchPortAt method (c :: rest) with
    | some (nm, _) => nm :: portNamesAll method rest
    | none => portNamesAll method rest

/-- Declarative reading of one port-pattern match: at the head of `s` stands
the category's call syntax, then an object literal whose first field is a
quoted `name` whose value is `nm`. -/
def PortCallAt (method : List Char) (s : List Char) (nm : List Char) : Prop :=
  ∃ w1 w2 q1 q2 rest,
    s = portLit method ++ w1 ++ "name:".data ++ w2 ++ q1 :: (nm ++ q2 :: rest) ∧
    (∀ c ∈ w1, isSpaceCh c = true) ∧ (∀ c ∈ w2, isSpaceCh c = true) ∧
    isQuote q1 = true ∧ isQuote q2 = true ∧
    nm ≠ [] ∧ (∀ c ∈ nm, isW c = true)

/-- Declarative reading of the already-annotated test: somewhere in the text
stands `extends `, a nonempty word, and an angle-bracket list. -/
def ExtendsAngleAnywhere (content : String) : Prop :=
  ∃ pre w mid post,
    content.data = pre ++ "extends ".data ++ w ++ '<' :: (mid ++ '>' :: post) ∧
    w ≠ [] ∧ (∀ c ∈ w, isW c = true) ∧ mid ≠ [] ∧ '>' ∉ mid

/-- Matcher for an exported class declaration whose angle-bracket list stands
immediately after the base-class name:
`export class \w+ extends \w+<[^>]+>` anchored at the head of `s`. -/
def matchDeclAngleAt (s : List Char) : Option Unit :=
  match dropLit "export class ".data s with
  | none => none
  | some r1 =>
    let x := r1.takeWhile isW
    if x = [] then none
    else
      match dropLit " extends ".data (r1.dropWhile isW) with
      | none => none
      | some r2 =>
        let y := r2.takeWhile isW
        if y = [] then none
        else
          match r2.dropWhile isW with
          | [] => none
          | c2 :: r3 =>
            if c2 = '<' then
              let mid := r3.takeWhile notGt
              if mid = [] then none
              else
                match r3.dropWhile notGt with
                | [] => none
                | c3 :: _ => if c3 = '>' then some () else none
            else none

/-- Follows the spec's words (section 4.2): whether an angle-bracket
type-parameter list stands immediately after the base-class name of an
exported class declaration.  This is the comparison point for the claim that
the already-annotated test looks only at the matched declaration. -/
def declAnnotatedSpec (content : String) : Bool :=
  (searchF matchDeclAngleAt content.data).isSome

/-- Whether the splice pattern `(export class \w+ extends \w+)(\s*{)` matches
anywhere in the text. -/
def hasSpliceMatch (content : String) : Bool :=
  (searchF matchDeclAt content.data).isSome

/-- A file whose matched declaration carries no annotation while an
`extends Name<...>` pattern occurs elsewhere in the file. -/
def nonDeclAngleFile : String :=
  "export class Foo extends Bar \x7b\n\x7d\nclass Helper extends Thing<T> \x7b\n\x7d\n"

/-- The end-to-end scenario file of the spec (section 8): one input call named
`value`, one output call named `result`. -/
def fooNodeInput : String :=
  "export class FooNode extends BaseThreeNode \x7b\n  constructor() \x7b\n    super();\n    this.addInput(\x7b name: 'value', type: 'number' \x7d);\n    this.addOutput(\x7b name: 'result', type: 'number' \x7d);\n  \x7d\n\x7d\n"

/-- The part of the scenario file after the rewritten declaration header. -/
def fooNodeTail : String :=
  "\n  constructor() \x7b\n    super();\n    this.addInput(\x7b name: 'value', type: 'number' \x7d);\n    this.addOutput(\x7b name: 'result', type: 'number' \x7d);\n  \x7d\n\x7d\n"

/-- The expected rewrite of the scenario file. -/
def fooNodeExpected : String :=
  "export class FooNode extends BaseThreeNode<\n  'value',\n  'result'\n> \x7b" ++ fooNodeTail

/-- Helper: when the outcome is not a rewrite, `process_file` returns the
content unchanged with the `False` flag. -/
lemma process_file_of_not_modified (c : String)
    (h : ∀ m, process_file_outcome c ≠ FileOutcome.modified m) :
    process_file c = (c, false) := by
  unfold process_file
  cases ho : process_file_outcome c <;> simp_all

/-- Helper: if the splice pattern matches nowhere, the substitution scan is
the identity, whatever the fuel. -/
lemma subDeclF_of_no_match (it ot : List Char) :
    ∀ (fuel : Nat) (s : List Char), searchF matchDeclAt s = none →
      subDeclF it ot fuel s = s := by
  intro fuel
  induction fuel with
  | zero => intro s _; rfl
  | succ n ih =>
    intro s h
    cases s with
    | nil => rfl
    | cons c rest =>
      simp only [searchF] at h
      cases hm : matchDeclAt (c :: rest) with
      | some a => rw [hm] at h; simp at h
      | none =>
        rw [hm] at h
        simp only [subDeclF, hm]
        rw [ih rest h]

/-- Helper: the counting fold visits every list entry, incrementing exactly
one of the two counters for each. -/
lemma foldl_count_total {β : Type} (p : β → Bool) :
    ∀ (files : List β) (a b : Nat),
      ((files.foldl
          (fun acc f => if p f then (acc.1 + 1, acc.2) else (acc.1, acc.2 + 1))
          (a, b)).1 +
        (files.foldl
          (fun acc f => if p f then (acc.1 + 1, acc.2) else (acc.1, acc.2 + 1))
          (a, b)).2) = a + b + files.length := by
  intro files
  induction files with
  | nil => intro a b; simp
  | cons f t ih =>
    intro a b
    cases h : p f with
    | true =>
      simp only [List.foldl_cons, h, if_true]
      rw [ih (a + 1) b]
      simp only [List.length_cons]
      omega
    | false =>
      simp only [List.foldl_cons, h, Bool.false_eq_true, if_false]
      rw [ih a (b + 1)]
      simp only [List.length_cons]
      omega

/-- C5: the Type Annotation Synthesizer returns the marker `never` for the
empty sequence, a single quoted literal for a one-element sequence, and for
two or more names the pipe-delimited alternation of quoted literals, one term
per name in input order, duplicates kept. -/
theorem c5_format_type_union_spec :
    format_type_union [] = "never" ∧
    (∀ n : String, format_type_union [n] = "'" ++ n ++ "'") ∧
    (∀ names : List String, 2 ≤ names.length →
      format_type_union names =
        joinSep " | " (names.map (fun n => "'" ++ n ++ "'"))) := by
  refine ⟨rfl, fun n => rfl, fun names h => ?_⟩
  match names with
  | [] => simp at h
  | [n] => simp at h
  | a :: b :: t => rfl

/-- Witness for C5 at a concrete two-element input with a duplicate: each
occurrence produces its own alternation term. -/
theorem c5_witness :
    format_type_union ["a", "a"] =
      joinSep " | " ((["a", "a"]).map (fun n => "'" ++ n ++ "'")) :=
  c5_format_type_union_spec.2.2 ["a", "a"] (by decide)

/-- C2: for the two designated dynamic-port class names the overridden port
categories get the fixed placeholder `string` (inputs for `MergeNode`, both
for `SplitNode`), whatever the file text says; the override is keyed on the
class name alone. -/
theorem c2_dynamic_ports_override :
    (∀ content : String, (compute_port_lists "MergeNode" content).1 = ["string"]) ∧
    (∀ content : String, compute_port_lists "SplitNode" content = (["string"], ["string"])) ∧
    format_type_union ["string"] = "'string'" ∧
    (∀ name : String, is_dynamic_ports_node name = true →
      name = "MergeNode" ∨ name = "SplitNode") ∧
    (∀ name c c' : String, is_dynamic_ports_node name = true →
      (compute_port_lists name c).1 = (compute_port_lists name c').1) := by
  refine ⟨fun content => ?_, fun content => ?_, rfl, fun name h => ?_, fun name c c' h => ?_⟩
  · simp [compute_port_lists, is_dynamic_ports_node]
  · simp [compute_port_lists, is_dynamic_ports_node]
  · simpa [is_dynamic_ports_node] using h
  · simp [compute_port_lists, h]

/-- Witness for C2: the override at the concrete name `MergeNode` does not
depend on the file content. -/
theorem c2_witness :
    (compute_port_lists "MergeNode" "this.addInput(\x7b name: 'a' \x7d)").1 =
      (compute_port_lists "MergeNode" "").1 :=
  c2_dynamic_ports_override.2.2.2.2 "MergeNode"
    "this.addInput(\x7b name: 'a' \x7d)" "" (by decide)

/-- C9: a read failure or a write failure on one file is absorbed at the
per-file boundary (the file counts as not modified), and the run still visits
every file, each contributing to exactly one counter. -/
theorem c9_per_file_errors_contained :
    (∀ (msg : String) (w : FsResult Unit),
      process_file_try (FsResult.err msg) w = false) ∧
    (∀ (c msg : String),
      process_file_try (FsResult.ok c) (FsResult.err msg) = false) ∧
    (∀ files : List (FsResult String × FsResult Unit),
      (run_tool_try files).1 + (run_tool_try files).2 = files.length) := by
  refine ⟨fun msg w => rfl, fun c msg => ?_, fun files => ?_⟩
  · cases h : process_file_outcome c <;> simp [process_file_try, h]
  · simpa [run_tool_try] using
      foldl_count_total (fun f => process_file_try f.1 f.2) files 0 0

set_option maxRecDepth 40000 in
/-- C4: the end-to-end scenario.  The scenario file is rewritten to the
annotated declaration followed by the original body, `process_file` reports
it modified, and the run summary counts one modified and zero skipped
files. -/
theorem c4_end_to_end :
    process_file fooNodeInput = (fooNodeExpected, true) ∧
    fooNodeExpected =
      "export class FooNode extends BaseThreeNode<\n  'value',\n  'result'\n> \x7b" ++
        fooNodeTail ∧
    extract_port_names fooNodeInput "addInput" = ["value"] ∧
    extract_port_names fooNodeInput "addOutput" = ["result"] ∧
    run_tool [fooNodeInput] = (1, 0) := by
  decide

/-- C7: the Inspector's three skip conditions — no class/base match, reserved
base-class name, already annotated — characterize the three skip outcomes, in
that order of precedence; each leaves the file unmodified with no error, and
when none holds the file proceeds to the rewrite stage. -/
theorem c7_skip_policy (c : String) :
    (process_file_outcome c = FileOutcome.noClass ↔ get_class_name c = none) ∧
    (process_file_outcome c = FileOutcome.noBase ↔
      get_class_name c ≠ none ∧ get_base_class c = none) ∧
    (process_file_outcome c = FileOutcome.reservedBase ↔
      ∃ x, get_class_name c = some x ∧ get_base_class c ≠ none ∧
        x ∈ reserved_class_names) ∧
    (process_file_outcome c = FileOutcome.alreadyTyped ↔
      ∃ x, get_class_name c = some x ∧ get_base_class c ≠ none ∧
        x ∉ reserved_class_names ∧ has_type_parameters c = true) ∧
    ((process_file_outcome c = FileOutcome.noClass ∨
      process_file_outcome c = FileOutcome.noBase ∨
      process_file_outcome c = FileOutcome.reservedBase ∨
      process_file_outcome c = FileOutcome.alreadyTyped) →
      process_file c = (c, false)) ∧
    ((∃ x, get_class_name c = some x ∧ get_base_class c ≠ none ∧
        x ∉ reserved_class_names ∧ has_type_parameters c = false) →
      (∃ m, process_file_outcome c = FileOutcome.modified m) ∨
        process_file_outcome c = FileOutcome.noChange) := by
  cases h1 : get_class_name c with
  | none => simp [process_file_outcome, process_file, h1]
  | some x =>
    cases h2 : get_base_class c with
    | none => simp [process_file_outcome, process_file, h1, h2]
    | some b =>
      by_cases h3 : x ∈ reserved_class_names
      · simp [process_file_outcome, process_file, h1, h2, h3]
      · by_cases h4 : has_type_parameters c = true
        · simp [process_file_outcome, process_file, h1, h2, h3, h4]
        · by_cases h5 :
            inject_type_parameters c (compute_port_lists x c).1
              (compute_port_lists x c).2 = c
          · simp [process_file_outcome, process_file, h1, h2, h3,
              eq_false_of_ne_true h4, h5]
          · simp [process_file_outcome, process_file, h1, h2, h3,
              eq_false_of_ne_true h4, h5]

/-- Witness for C7 at a file with no exported class declaration. -/
theorem c7_witness : process_file_outcome "no class here" = FileOutcome.noClass :=
  (c7_skip_policy "no class here").1.mpr (by decide)

/-- C8: a file the declaration pattern does not match, and likewise a file
the splice pattern does not match, comes back byte-identical, is not written
and counts as skipped. -/
theorem c8_no_match_frame :
    (∀ c : String, get_class_name c = none → process_file c = (c, false)) ∧
    (∀ c : String, hasSpliceMatch c = false → process_file c = (c, false)) := by
  constructor
  · intro c h
    simp [process_file, process_file_outcome, h]
  · intro c h
    have hsub : searchF matchDeclAt c.data = none := by
      cases hs : searchF matchDeclAt c.data with
      | none => rfl
      | some a => rw [hasSpliceMatch, hs] at h; simp at h
    apply process_file_of_not_modified
    intro m
    cases h1 : get_class_name c with
    | none => simp [process_file_outcome, h1]
    | some x =>
      cases h2 : get_base_class c with
      | none => simp [process_file_outcome, h1, h2]
      | some b =>
        by_cases h3 : x ∈ reserved_class_names
        · simp [process_file_outcome, h1, h2, h3]
        · by_cases h4 : has_type_parameters c = true
          · simp [process_file_outcome, h1, h2, h3, h4]
          · have hinj :
                inject_type_parameters c (compute_port_lists x c).1
                  (compute_port_lists x c).2 = c := by
              unfold inject_type_parameters
              rw [eq_false_of_ne_true h4]
              simp only [Bool.false_eq_true, if_false]
              rw [subDeclF_of_no_match _ _ _ _ hsub]
              exact if_pos rfl
            simp [process_file_outcome, h1, h2, h3, eq_false_of_ne_true h4, hinj]

/-- Witness for C8 at a file with no declaration at all. -/
theorem c8_witness : process_file "hello" = ("hello", false) :=
  c8_no_match_frame.1 "hello" (by decide)

/-- Helper: `dropLit` succeeds exactly on literal prefixes. -/
lemma dropLit_eq_some {lit : List Char} :
    ∀ {s r : List Char}, dropLit lit s = some r ↔ s = lit ++ r := by
  induction lit with
  | nil => intro s r; simp [dropLit]
  | cons l ls ih =>
    intro s r
    cases s with
    | nil => simp [dropLit]
    | cons c cs =>
      by_cases h : l = c
      · subst h
        simp [dropLit, ih]
      · simp only [dropLit, if_neg h, List.cons_append]
        constructor
        · intro hn; exact Option.noConfusion hn
        · intro he
          injection he with h1 _
          exact absurd h1.symm h

/-- Helper: `takeWhile`/`dropWhile` split a list at the first character
failing the predicate. -/
lemma takeWhile_middle (p : Char → Bool) :
    ∀ (a : List Char) (c : Char) (b : List Char),
      (∀ x ∈ a, p x = true) → p c = false →
      (a ++ c :: b).takeWhile p = a ∧ (a ++ c :: b).dropWhile p = c :: b := by
  intro a
  induction a with
  | nil =>
    intro c b _ hc
    simp [List.takeWhile_cons, List.dropWhile_cons, hc]
  | cons x a1 ih =>
    intro c b ha hc
    have hx : p x = true := ha x (by simp)
    have h2 := ih c b (fun y hy => ha y (by simp [hy])) hc
    simp [List.takeWhile_cons, List.dropWhile_cons, hx, h2.1, h2.2]

/-- Helper: a quote character is neither whitespace nor a word character nor
a dot. -/
lemma isQuote_props {c : Char} (h : isQuote c = true) :
    isSpaceCh c = false ∧ isW c = false ∧ c ≠ '.' := by
  have : c = '\'' ∨ c = '\"' := by
    simpa [isQuote] using h
  rcases this with rfl | rfl <;> exact ⟨rfl, rfl, by decide⟩

/-- Helper: the already-annotated matcher succeeds only on the decomposed
shape `extends <word><<non-gt>+>`. -/
lemma matchExtendsAngleAt_some {s : List Char} (h : matchExtendsAngleAt s = some ()) :
    ∃ w mid post, s = "extends ".data ++ w ++ '<' :: (mid ++ '>' :: post) ∧
      w ≠ [] ∧ (∀ c ∈ w, isW c = true) ∧ mid ≠ [] ∧ '>' ∉ mid := by
  simp only [matchExtendsAngleAt] at h
  split at h
  · exact Option.noConfusion h
  · rename_i r1 hd
    split at h
    · exact Option.noConfusion h
    · rename_i hw
      split at h
      · exact Option.noConfusion h
      · rename_i c2 r2 hdw
        split at h
        · rename_i hc2
          split at h
          · exact Option.noConfusion h
          · rename_i hmid
            split at h
            · exact Option.noConfusion h
            · rename_i c3 r3 hdg
              split at h
              · rename_i hc3
                subst hc2
                subst hc3
                obtain ⟨w, hweq⟩ : ∃ u, r1.takeWhile isW = u := ⟨_, rfl⟩
                obtain ⟨mm, hmmeq⟩ : ∃ u, r2.takeWhile notGt = u := ⟨_, rfl⟩
                have hs : s = "extends ".data ++ r1 := dropLit_eq_some.mp hd
                have hr1 : r1 = w ++ '<' :: r2 := by
                  conv_lhs => rw [← List.takeWhile_append_dropWhile isW r1]
                  rw [hdw, hweq]
                have hr2 : r2 = mm ++ '>' :: r3 := by
                  conv_lhs => rw [← List.takeWhile_append_dropWhile notGt r2]
                  rw [hdg, hmmeq]
                refine ⟨w, mm, r3, ?_, ?_, ?_, ?_, ?_⟩
                · rw [hs, hr1, hr2]
                  simp [List.append_assoc]
                · rw [hweq] at hw; exact hw
                · intro c hc
                  exact List.mem_takeWhile_imp (hweq ▸ hc)
                · rw [hmmeq] at hmid; exact hmid
                · intro hgtm
                  have := List.mem_takeWhile_imp (hmmeq ▸ hgtm)
                  simp [notGt] at this
              · exact Option.noConfusion h
        · exact Option.noConfusion h

/-- Helper: the already-annotated matcher accepts every text of the
decomposed shape. -/
lemma matchExtendsAngleAt_of_parts (w mid post : List Char)
    (hw : w ≠ []) (hwall : ∀ c ∈ w, isW c = true)
    (hmid : mid ≠ []) (hgt : '>' ∉ mid) :
    matchExtendsAngleAt ("extends ".data ++ w ++ '<' :: (mid ++ '>' :: post)) = some () := by
  have hd : dropLit "extends ".data
      ("extends ".data ++ (w ++ '<' :: (mid ++ '>' :: post))) =
        some (w ++ '<' :: (mid ++ '>' :: post)) := dropLit_eq_some.mpr rfl
  have hb := takeWhile_middle isW w '<' (mid ++ '>' :: post) hwall (by decide)
  have hmidall : ∀ x ∈ mid, notGt x = true := by
    intro x hx
    have hne : x ≠ '>' := fun he => hgt (he ▸ hx)
    simp [notGt, hne]
  have hb2 := takeWhile_middle notGt mid '>' post hmidall (by decide)
  rw [List.append_assoc]
  simp only [matchExtendsAngleAt]
  split
  · rename_i heq
    rw [hd] at heq
    exact Option.noConfusion heq
  · rename_i r1 heq
    rw [hd] at heq
    injection heq with h1
    subst h1
    split
    · rename_i hcond
      rw [hb.1] at hcond
      exact absurd hcond hw
    · split
      · rename_i heq2
        rw [hb.2] at heq2
        exact List.noConfusion heq2
      · rename_i c2 r2 heq2
        rw [hb.2] at heq2
        injection heq2 with hc2 hr2
        subst hc2
        subst hr2
        rw [if_pos rfl]
        split
        · rename_i hcond2
          rw [hb2.1] at hcond2
          exact absurd hcond2 hmid
        · split
          · rename_i heq3
            rw [hb2.2] at heq3
            exact List.noConfusion heq3
          · rename_i c3 r3 heq3
            rw [hb2.2] at heq3
            injection heq3 with hc3 _
            subst hc3
            rw [if_pos rfl]

/-- Helper: a successful search splits the text at the match position. -/
lemma searchF_some_split {α : Type} {m : List Char → Option α} :
    ∀ {s : List Char} {a : α}, searchF m s = some a →
      ∃ pre post, s = pre ++ post ∧ m post = some a := by
  intro s
  induction s with
  | nil => intro a h; exact absurd h (by simp [searchF])
  | cons c rest ih =>
    intro a h
    simp only [searchF] at h
    cases hm : m (c :: rest) with
    | some b =>
      rw [hm] at h
      simp only [Option.some.injEq] at h
      exact ⟨[], c :: rest, by simp, by rw [hm, h]⟩
    | none =>
      rw [hm] at h
      obtain ⟨pre, post, hsplit, hmp⟩ := ih h
      exact ⟨c :: pre, post, by simp [hsplit], hmp⟩

/-- Helper: a match anywhere makes the search succeed. -/
lemma searchF_isSome {α : Type} {m : List Char → Option α} (hm0 : m [] = none) :
    ∀ (pre post : List Char) (a : α), m post = some a →
      (searchF m (pre ++ post)).isSome = true := by
  intro pre
  induction pre with
  | nil =>
    intro post a hp
    cases post with
    | nil => rw [hp] at hm0; exact absurd hm0 (by simp)
    | cons c rest =>
      simp only [List.nil_append, searchF, hp]
      rfl
  | cons c pre1 ih =>
    intro post a hp
    simp only [List.cons_append, searchF]
    cases hm : m (c :: (pre1 ++ post)) with
    | some b => rfl
    | none => exact ih post a hp

/-- Shared characterization: `has_type_parameters` holds exactly when the
pattern `extends \w+<[^>]+>` occurs anywhere in the file text. -/
lemma has_type_parameters_iff (c : String) :
    has_type_parameters c = true ↔ ExtendsAngleAnywhere c := by
  constructor
  · intro h
    unfold has_type_parameters at h
    cases hs : searchF matchExtendsAngleAt c.data with
    | none => rw [hs] at h; exact absurd h (by simp)
    | some u =>
      obtain ⟨pre, post, hsplit, hmp⟩ := searchF_some_split hs
      obtain ⟨w, mid, post2, hshape, hw, hwall, hmid, hgt⟩ :=
        matchExtendsAngleAt_some (by rw [hmp])
      exact ⟨pre, w, mid, post2, by rw [hsplit, hshape]; simp [List.append_assoc],
        hw, hwall, hmid, hgt⟩
  · rintro ⟨pre, w, mid, post, hshape, hw, hwall, hmid, hgt⟩
    unfold has_type_parameters
    rw [hshape]
    have hmp := matchExtendsAngleAt_of_parts w mid post hw hwall hmid hgt
    have := searchF_isSome (m := matchExtendsAngleAt) rfl pre
      ("extends ".data ++ w ++ '<' :: (mid ++ '>' :: post)) () hmp
    simpa [List.append_assoc] using this

/-- C1 counterexample: the file `nonDeclAngleFile` has an unannotated matched
declaration (`export class Foo extends Bar {`), yet the Inspector classifies
it as already annotated because an `extends Thing<T>` occurs elsewhere; so
the claimed "exactly when the matched declaration is annotated" fails. -/
theorem c1_counterexample :
    process_file_outcome nonDeclAngleFile = FileOutcome.alreadyTyped ∧
    declAnnotatedSpec nonDeclAngleFile = false ∧
    process_file nonDeclAngleFile = (nonDeclAngleFile, false) := by decide

/-- C1 amended: the already-annotated classification holds exactly when the
pattern `extends <word><...>` occurs anywhere in the file text, inside or
outside the matched declaration; whenever the outcome is the
already-annotated skip, such an occurrence exists and the file comes back
unchanged. -/
theorem c1_already_annotated_amended (c : String) :
    (has_type_parameters c = true ↔ ExtendsAngleAnywhere c) ∧
    (process_file_outcome c = FileOutcome.alreadyTyped →
      ExtendsAngleAnywhere c ∧ process_file c = (c, false)) := by
  refine ⟨has_type_parameters_iff c, fun ho => ?_⟩
  have htp : has_type_parameters c = true := by
    by_contra hneg
    revert ho
    cases h1 : get_class_name c with
    | none => simp [process_file_outcome, h1]
    | some x =>
      cases h2 : get_base_class c with
      | none => simp [process_file_outcome, h1, h2]
      | some b =>
        by_cases h3 : x ∈ reserved_class_names
        · simp [process_file_outcome, h1, h2, h3]
        · have h4 : has_type_parameters c = false := eq_false_of_ne_true hneg
          by_cases h5 :
              inject_type_parameters c (compute_port_lists x c).1
                (compute_port_lists x c).2 = c
          · simp [process_file_outcome, h1, h2, h3, h4, h5]
          · simp [process_file_outcome, h1, h2, h3, h4, h5]
  refine ⟨(has_type_parameters_iff c).mp htp, ?_⟩
  apply process_file_of_not_modified
  intro m hcontra
  rw [ho] at hcontra
  exact absurd hcontra (by simp)

/-- Witness for C1's amended theorem at the counterexample file. -/
theorem c1_witness :
    ExtendsAngleAnywhere nonDeclAngleFile ∧
    process_file nonDeclAngleFile = (nonDeclAngleFile, false) :=
  (c1_already_annotated_amended nonDeclAngleFile).2 (by decide)

/-- Helper: string concatenation concatenates the character lists. -/
lemma data_append (a b : String) : (a ++ b).data = a.data ++ b.data := rfl

/-- Helper: a successful declaration match decomposes the text into the two
captured groups and the remainder. -/
lemma matchDeclAt_some {s g1 g2 after : List Char}
    (h : matchDeclAt s = some (g1, g2, after)) :
    ∃ x y ws, g1 = "export class ".data ++ x ++ " extends ".data ++ y ∧
      g2 = ws ++ ['\x7b'] ∧ s = g1 ++ (g2 ++ after) ∧
      x ≠ [] ∧ (∀ c ∈ x, isW c = true) ∧ y ≠ [] ∧ (∀ c ∈ y, isW c = true) ∧
      (∀ c ∈ ws, isSpaceCh c = true) := by
  simp only [matchDeclAt] at h
  split at h
  · exact Option.noConfusion h
  · rename_i r1 hd
    split at h
    · exact Option.noConfusion h
    · rename_i hx
      split at h
      · exact Option.noConfusion h
      · rename_i r2 hd2
        split at h
        · exact Option.noConfusion h
        · rename_i hy
          split at h
          · exact Option.noConfusion h
          · rename_i c3 after2 hdw3
            split at h
            · rename_i hc3
              subst hc3
              injection h with htrip
              rw [Prod.mk.injEq, Prod.mk.injEq] at htrip
              obtain ⟨e1, e2, e3⟩ := htrip
              obtain ⟨x, hxeq⟩ : ∃ u, r1.takeWhile isW = u := ⟨_, rfl⟩
              obtain ⟨y, hyeq⟩ : ∃ u, r2.takeWhile isW = u := ⟨_, rfl⟩
              obtain ⟨ws, hwseq⟩ : ∃ u, (r2.dropWhile isW).takeWhile isSpaceCh = u :=
                ⟨_, rfl⟩
              have hs1 : s = "export class ".data ++ r1 := dropLit_eq_some.mp hd
              have hr1 : r1 = x ++ (" extends ".data ++ r2) := by
                conv_lhs => rw [← List.takeWhile_append_dropWhile isW r1]
                rw [hxeq, dropLit_eq_some.mp hd2]
              have hr2 : r2 = y ++ (ws ++ '\x7b' :: after2) := by
                conv_lhs => rw [← List.takeWhile_append_dropWhile isW r2]
                rw [hyeq]
                congr 1
                conv_lhs =>
                  rw [← List.takeWhile_append_dropWhile isSpaceCh (r2.dropWhile isW)]
                rw [hwseq, hdw3]
              refine ⟨x, y, ws, ?_, ?_, ?_, ?_, ?_, ?_, ?_, ?_⟩
              · rw [← e1, hxeq, hyeq]
              · rw [← e2, hwseq]
              · rw [← e1, ← e2, ← e3, hxeq, hyeq, hwseq, hs1, hr1, hr2]
                simp [List.append_assoc]
              · rw [← hxeq]; exact hx
              · intro c hc; exact List.mem_takeWhile_imp (hxeq ▸ hc)
              · rw [← hyeq]; exact hy
              · intro c hc; exact List.mem_takeWhile_imp (hyeq ▸ hc)
              · intro c hc; exact List.mem_takeWhile_imp (hwseq ▸ hc)
            · exact Option.noConfusion h

/-- Helper: the annotation block is nonempty and free of `>` when the two
synthesized annotations are. -/
lemma annot_block_props {it ot : List Char} (hit : '>' ∉ it) (hot : '>' ∉ ot) :
    annot_block it ot ≠ [] ∧ '>' ∉ annot_block it ot := by
  constructor
  · simp [annot_block]
  · intro hmem
    simp only [annot_block, List.mem_append] at hmem
    rcases hmem with ((((hm | hm) | hm) | hm) | hm)
    · exact absurd hm (by decide)
    · exact hit hm
    · exact absurd hm (by decide)
    · exact hot hm
    · exact absurd hm (by decide)

/-- Helper: a substitution scan that changed the text put an
`extends <word><...>` shape into its output. -/
lemma subDeclF_angle {it ot : List Char} (hit : '>' ∉ it) (hot : '>' ∉ ot) :
    ∀ (fuel : Nat) (s : List Char), subDeclF it ot fuel s ≠ s →
      ∃ pre w mid post, subDeclF it ot fuel s =
        pre ++ "extends ".data ++ w ++ '<' :: (mid ++ '>' :: post) ∧
        w ≠ [] ∧ (∀ c ∈ w, isW c = true) ∧ mid ≠ [] ∧ '>' ∉ mid := by
  intro fuel
  induction fuel with
  | zero => intro s hne; exact absurd rfl hne
  | succ n ih =>
    intro s hne
    cases s with
    | nil => exact absurd rfl hne
    | cons c rest =>
      cases hm : matchDeclAt (c :: rest) with
      | none =>
        simp only [subDeclF, hm] at hne ⊢
        have hrest : subDeclF it ot n rest ≠ rest := by
          intro he; exact hne (by rw [he])
        obtain ⟨pre, w, mid, post, hshape, hw, hwall, hmid, hgt⟩ := ih rest hrest
        exact ⟨c :: pre, w, mid, post, by rw [hshape]; simp, hw, hwall, hmid, hgt⟩
      | some t =>
        obtain ⟨g1, g2, after⟩ := t
        simp only [subDeclF, hm]
        obtain ⟨x, y, ws, hg1, hg2, hsplit, hxne, hxall, hyne, hyall, hwsall⟩ :=
          matchDeclAt_some hm
        obtain ⟨hblk, hblkgt⟩ := annot_block_props hit hot
        refine ⟨"export class ".data ++ x ++ [' '], y, annot_block it ot,
          g2 ++ subDeclF it ot n after, ?_, hyne, hyall, hblk, hblkgt⟩
        have hsp : " extends ".data = ' ' :: "extends ".data := rfl
        rw [decl_replacement, hg1, hsp]
        simp [List.append_assoc]

/-- Helper: `joinSep` introduces no `>` when neither the separator nor any
part holds one. -/
lemma joinSep_noGt (sep : String) (hsep : '>' ∉ sep.data) :
    ∀ l : List String, (∀ x ∈ l, '>' ∉ x.data) → '>' ∉ (joinSep sep l).data := by
  intro l
  induction l with
  | nil => intro _; simp [joinSep]
  | cons x xs ih =>
    intro hall
    cases xs with
    | nil => simpa [joinSep] using hall x (by simp)
    | cons y ys =>
      intro hmem
      rw [joinSep, data_append, data_append] at hmem
      simp only [List.mem_append] at hmem
      rcases hmem with (hm | hm) | hm
      · exact hall x (by simp) hm
      · exact hsep hm
      · exact ih (fun z hz => hall z (by simp [hz])) hm

/-- Helper: the synthesized annotation holds no `>` when every name is made
of word characters. -/
lemma format_type_union_noGt {names : List String}
    (h : ∀ n ∈ names, ∀ c ∈ n.data, isW c = true) :
    '>' ∉ (format_type_union names).data := by
  have hq : ∀ n ∈ names, '>' ∉ ("'" ++ n ++ "'").data := by
    intro n hn hmem
    rw [data_append, data_append] at hmem
    simp only [List.mem_append] at hmem
    rcases hmem with (hm | hm) | hm
    · exact absurd hm (by decide)
    · exact absurd (h n hn '>' hm) (by decide)
    · exact absurd hm (by decide)
  match names with
  | [] => simp [format_type_union]
  | [n] => exact hq n (by simp)
  | a :: b :: t =>
    refine joinSep_noGt " | " (by decide) _ ?_
    intro q hqmem
    rw [List.mem_map] at hqmem
    obtain ⟨n, hn, rfl⟩ := hqmem
    exact hq n hn

/-- Helper: a successful port match decomposes the text into the call
literal, whitespace runs, the quotes and the captured name. -/
lemma matchPortAt_some {m s nm after : List Char}
    (h : matchPortAt m s = some (nm, after)) :
    ∃ w1 w2 q1 q2,
      s = portLit m ++ w1 ++ "name:".data ++ w2 ++ q1 :: (nm ++ q2 :: after) ∧
      (∀ c ∈ w1, isSpaceCh c = true) ∧ (∀ c ∈ w2, isSpaceCh c = true) ∧
      isQuote q1 = true ∧ isQuote q2 = true ∧
      nm ≠ [] ∧ (∀ c ∈ nm, isW c = true) := by
  simp only [matchPortAt] at h
  split at h
  · exact Option.noConfusion h
  · rename_i r1 hd
    split at h
    · exact Option.noConfusion h
    · rename_i r3 hd2
      split at h
      · exact Option.noConfusion h
      · rename_i q1 r5 hdw2
        split at h
        · rename_i hq1
          split at h
          · exact Option.noConfusion h
          · rename_i hnm
            split at h
            · exact Option.noConfusion h
            · rename_i q2 r7 hdw3
              split at h
              · rename_i hq2
                injection h with hpair
                rw [Prod.mk.injEq] at hpair
                obtain ⟨e1, e2⟩ := hpair
                obtain ⟨w1, hw1eq⟩ : ∃ u, r1.takeWhile isSpaceCh = u := ⟨_, rfl⟩
                obtain ⟨w2, hw2eq⟩ : ∃ u, r3.takeWhile isSpaceCh = u := ⟨_, rfl⟩
                have hs1 : s = portLit m ++ r1 := dropLit_eq_some.mp hd
                have hr1 : r1 = w1 ++ ("name:".data ++ r3) := by
                  conv_lhs => rw [← List.takeWhile_append_dropWhile isSpaceCh r1]
                  rw [hw1eq, dropLit_eq_some.mp hd2]
                have hr3 : r3 = w2 ++ (q1 :: r5) := by
                  conv_lhs => rw [← List.takeWhile_append_dropWhile isSpaceCh r3]
                  rw [hw2eq, hdw2]
                have hr5 : r5 = nm ++ (q2 :: after) := by
                  conv_lhs => rw [← List.takeWhile_append_dropWhile isW r5]
                  rw [hdw3, e1, e2]
                refine ⟨w1, w2, q1, q2, ?_, ?_, ?_, hq1, hq2, ?_, ?_⟩
                · rw [hs1, hr1, hr3, hr5]
                  simp [List.append_assoc]
                · intro c hc; exact List.mem_takeWhile_imp (hw1eq ▸ hc)
                · intro c hc; exact List.mem_takeWhile_imp (hw2eq ▸ hc)
                · rw [← e1]; exact hnm
                · intro c hc; exact List.mem_takeWhile_imp (e1 ▸ hc)
              · exact Option.noConfusion h
        · exact Option.noConfusion h

/-- Helper: every name the port scan collects is made of word characters. -/
lemma portsF_word {m : List Char} :
    ∀ (fuel : Nat) (s nm : List Char), nm ∈ portsF m fuel s →
      ∀ c ∈ nm, isW c = true := by
  intro fuel
  induction fuel with
  | zero => intro s nm hmem; simp [portsF] at hmem
  | succ n ih =>
    intro s nm hmem
    cases s with
    | nil => simp [portsF] at hmem
    | cons c rest =>
      cases hm : matchPortAt m (c :: rest) with
      | none =>
        simp only [portsF, hm] at hmem
        exact ih rest nm hmem
      | some t =>
        obtain ⟨nm2, after⟩ := t
        simp only [portsF, hm, List.mem_cons] at hmem
        rcases hmem with rfl | hmem
        · obtain ⟨_, _, _, _, _, _, _, _, _, _, hword⟩ := matchPortAt_some hm
          exact hword
        · exact ih after nm hmem

/-- Helper: every extracted port name is made of word characters. -/
lemma extract_port_names_word (content method : String) :
    ∀ n ∈ extract_port_names content method, ∀ c ∈ n.data, isW c = true := by
  intro n hn
  simp only [extract_port_names, List.mem_map] at hn
  obtain ⟨l, hl, rfl⟩ := hn
  exact portsF_word _ _ l hl

/-- Helper: both port lists of `compute_port_lists` hold only word-character
names, whatever the class name. -/
lemma compute_port_lists_word (cn content : String) :
    (∀ n ∈ (compute_port_lists cn content).1, ∀ c ∈ n.data, isW c = true) ∧
    (∀ n ∈ (compute_port_lists cn content).2, ∀ c ∈ n.data, isW c = true) := by
  have hstr : ∀ c ∈ ("string" : String).data, isW c = true := by decide
  by_cases hdyn : is_dynamic_ports_node cn = true
  · have hcn : cn = "MergeNode" ∨ cn = "SplitNode" := by
      simpa [is_dynamic_ports_node] using hdyn
    rcases hcn with rfl | rfl
    · constructor
      · intro n hn
        have hns : n = "string" := by
          simpa [compute_port_lists, is_dynamic_ports_node] using hn
        subst hns; exact hstr
      · intro n hn
        have hn2 : n ∈ extract_port_names content "addOutput" := by
          simpa [compute_port_lists, is_dynamic_ports_node] using hn
        exact extract_port_names_word content "addOutput" n hn2
    · constructor
      · intro n hn
        have hns : n = "string" := by
          simpa [compute_port_lists, is_dynamic_ports_node] using hn
        subst hns; exact hstr
      · intro n hn
        have hns : n = "string" := by
          simpa [compute_port_lists, is_dynamic_ports_node] using hn
        subst hns; exact hstr
  · have hd2 : is_dynamic_ports_node cn = false := eq_false_of_ne_true hdyn
    constructor
    · intro n hn
      have hn2 : n ∈ extract_port_names content "addInput" := by
        simpa [compute_port_lists, hd2] using hn
      exact extract_port_names_word content "addInput" n hn2
    · intro n hn
      have hn2 : n ∈ extract_port_names content "addOutput" := by
        simpa [compute_port_lists, hd2] using hn
      exact extract_port_names_word content "addOutput" n hn2

/-- Helper: a rewritten file decomposes into the substitution scan's output,
with the already-annotated test having failed on the input. -/
lemma process_file_modified {c c' : String} (h : process_file c = (c', true)) :
    ∃ x, get_class_name c = some x ∧ has_type_parameters c = false ∧
      c'.data = subDeclF (format_type_union (compute_port_lists x c).1).data
        (format_type_union (compute_port_lists x c).2).data c.data.length c.data ∧
      c' ≠ c := by
  have ho : process_file_outcome c = FileOutcome.modified c' := by
    unfold process_file at h
    cases ho2 : process_file_outcome c with
    | modified m =>
      rw [ho2] at h
      simp only [Prod.mk.injEq] at h
      rw [← h.1]
    | noClass => rw [ho2] at h; exact absurd h (by simp)
    | noBase => rw [ho2] at h; exact absurd h (by simp)
    | reservedBase => rw [ho2] at h; exact absurd h (by simp)
    | alreadyTyped => rw [ho2] at h; exact absurd h (by simp)
    | noChange => rw [ho2] at h; exact absurd h (by simp)
  simp only [process_file_outcome] at ho
  split at ho
  · exact absurd ho (by simp)
  · rename_i x h1
    split at ho
    · exact absurd ho (by simp)
    · rename_i b h2
      split at ho
      · exact absurd ho (by simp)
      · rename_i h3
        split at ho
        · exact absurd ho (by simp)
        · rename_i h4
          split at ho
          · rename_i h5
            injection ho with hoeq
            refine ⟨x, h1, eq_false_of_ne_true h4, ?_, ?_⟩
            · rw [← hoeq]
              unfold inject_type_parameters
              rw [eq_false_of_ne_true h4]
              simp only [Bool.false_eq_true, if_false]
              split
              · rename_i hms
                exfalso
                apply h5
                unfold inject_type_parameters
                rw [eq_false_of_ne_true h4]
                simp only [Bool.false_eq_true, if_false]
                rw [if_pos hms]
              · rfl
            · rw [← hoeq]; exact h5
          · exact absurd ho (by simp)

/-- Helper: an already-annotated file is returned unchanged and unmodified. -/
lemma process_file_skip_of_typed {c : String} (h : has_type_parameters c = true) :
    process_file c = (c, false) := by
  apply process_file_of_not_modified
  intro m
  cases h1 : get_class_name c with
  | none => simp [process_file_outcome, h1]
  | some x =>
    cases h2 : get_base_class c with
    | none => simp [process_file_outcome, h1, h2]
    | some b =>
      by_cases h3 : x ∈ reserved_class_names
      · simp [process_file_outcome, h1, h2, h3]
      · simp [process_file_outcome, h1, h2, h3, h]

/-- C3: running the tool twice changes nothing on the second run.  A file the
first run rewrote comes back unchanged and skipped; a file already carrying a
type-parameter annotation is returned unchanged and skipped; and every
skipped file is byte-identical to its input. -/
theorem c3_idempotent :
    (∀ c c' : String, process_file c = (c', true) → process_file c' = (c', false)) ∧
    (∀ c : String, has_type_parameters c = true → process_file c = (c, false)) ∧
    (∀ c c' : String, process_file c = (c', false) → c' = c) := by
  refine ⟨fun c c' h => ?_, fun c h => process_file_skip_of_typed h, fun c c' h => ?_⟩
  · obtain ⟨x, h1, h4, hdata, hne⟩ := process_file_modified h
    apply process_file_skip_of_typed
    rw [has_type_parameters_iff]
    have hitw : '>' ∉ (format_type_union (compute_port_lists x c).1).data :=
      format_type_union_noGt (compute_port_lists_word x c).1
    have hotw : '>' ∉ (format_type_union (compute_port_lists x c).2).data :=
      format_type_union_noGt (compute_port_lists_word x c).2
    have hsub_ne : subDeclF (format_type_union (compute_port_lists x c).1).data
        (format_type_union (compute_port_lists x c).2).data
        c.data.length c.data ≠ c.data := by
      intro he
      apply hne
      have hdd : c'.data = c.data := by rw [hdata, he]
      cases c' with
      | mk l => cases c with
        | mk l2 => exact congrArg String.mk (by simpa using hdd)
    obtain ⟨pre, w, mid, post, hshape, hw, hwall, hmid, hgt⟩ :=
      subDeclF_angle hitw hotw c.data.length c.data hsub_ne
    exact ⟨pre, w, mid, post, by rw [hdata, hshape], hw, hwall, hmid, hgt⟩
  · unfold process_file at h
    cases ho : process_file_outcome c with
    | modified m => rw [ho] at h; exact absurd h (by simp)
    | noClass => rw [ho] at h; simp only [Prod.mk.injEq] at h; exact h.1.symm
    | noBase => rw [ho] at h; simp only [Prod.mk.injEq] at h; exact h.1.symm
    | reservedBase => rw [ho] at h; simp only [Prod.mk.injEq] at h; exact h.1.symm
    | alreadyTyped => rw [ho] at h; simp only [Prod.mk.injEq] at h; exact h.1.symm
    | noChange => rw [ho] at h; simp only [Prod.mk.injEq] at h; exact h.1.symm

/-- Witness for C3: reprocessing the rewrite of a small class leaves it
unchanged and skipped. -/
theorem c3_witness :
    process_file "export class A extends B<\n  never,\n  never\n> \x7b\n\x7d" =
      ("export class A extends B<\n  never,\n  never\n> \x7b\n\x7d", false) :=
  c3_idempotent.1 "export class A extends B \x7b\n\x7d" _ (by decide)

/-- C10: the substitution is global.  Each match is replaced and the scan
continues on the remainder of the text, and the output length grows by one
annotation block per non-overlapping match of the declaration pattern, so a
text with several matches has every one of them spliced, not only the
first. -/
theorem c10_global_substitution (it ot : List Char) :
    (∀ (fuel : Nat) (s g1 g2 after : List Char),
      matchDeclAt s = some (g1, g2, after) →
        subDeclF it ot (fuel + 1) s =
          decl_replacement it ot g1 g2 ++ subDeclF it ot fuel after) ∧
    (∀ (fuel : Nat) (s : List Char),
      (subDeclF it ot fuel s).length =
        s.length + ((annot_block it ot).length + 2) * countDeclF fuel s) := by
  constructor
  · intro fuel s g1 g2 after hm
    cases s with
    | nil =>
      rw [show matchDeclAt [] = none from rfl] at hm
      exact Option.noConfusion hm
    | cons c rest => simp only [subDeclF, hm]
  · intro fuel
    induction fuel with
    | zero => intro s; simp [subDeclF, countDeclF]
    | succ n ih =>
      intro s
      cases s with
      | nil => simp [subDeclF, countDeclF]
      | cons c rest =>
        cases hm : matchDeclAt (c :: rest) with
        | none =>
          simp only [subDeclF, countDeclF, hm]
          rw [List.length_cons, List.length_cons, ih rest]
          omega
        | some t =>
          obtain ⟨g1, g2, after⟩ := t
          simp only [subDeclF, countDeclF, hm]
          obtain ⟨x, y, ws, hg1, hg2, hsplit, _⟩ := matchDeclAt_some hm
          rw [List.length_append, ih after]
          have hlen : (decl_replacement it ot g1 g2).length =
              g1.length + g2.length + ((annot_block it ot).length + 2) := by
            simp [decl_replacement, List.length_append]
            omega
          have hslen : (c :: rest).length = g1.length + (g2.length + after.length) := by
            rw [hsplit]
            simp [List.length_append]
          rw [hlen, hslen, Nat.mul_succ]
          omega

/-- Witness for C10 at a text holding two declaration matches: the first is
replaced and the scan continues over the rest, which still holds the second
declaration. -/
theorem c10_witness :
    subDeclF "'a'".data "'b'".data 60
        "export class A extends B \x7bexport class C extends D \x7b".data =
      decl_replacement "'a'".data "'b'".data "export class A extends B".data
          " \x7b".data ++
        subDeclF "'a'".data "'b'".data 59 "export class C extends D \x7b".data :=
  (c10_global_substitution "'a'".data "'b'".data).1 59
    "export class A extends B \x7bexport class C extends D \x7b".data
    "export class A extends B".data " \x7b".data
    "export class C extends D \x7b".data (by decide)

/-- Helper: `this.` in cons form. -/
lemma this_cons (r : List Char) :
    "this.".data ++ r = 't' :: 'h' :: 'i' :: 's' :: '.' :: r := rfl

/-- Helper: a port match can only fail where the text does not start with
the literal `this.`. -/
lemma matchPortAt_none_of_no_this {m x : List Char}
    (h : ∀ r, x ≠ "this.".data ++ r) : matchPortAt m x = none := by
  cases hd : dropLit (portLit m) x with
  | none => simp only [matchPortAt, hd]
  | some r =>
    exfalso
    apply h (m ++ ("(\x7b".data ++ r))
    rw [dropLit_eq_some.mp hd]
    simp [portLit, List.append_assoc]

/-- Helper: inside the span `this.<dot-free text><quote>`, no proper suffix
starts with the literal `this.`, whatever follows the span. -/
lemma no_this_inside {w : List Char} {z : Char} (hdot : '.' ∉ w) (hq : isQuote z = true) :
    ∀ (k : Nat) (tail r : List Char), 1 ≤ k →
      k < ("this.".data ++ w ++ [z]).length →
      ("this.".data ++ w ++ [z]).drop k ++ tail ≠ "this.".data ++ r := by
  intro k tail r hk1 hklt heq
  have hL : ("this.".data ++ w ++ [z] : List Char) =
      't' :: 'h' :: 'i' :: 's' :: '.' :: (w ++ [z]) := rfl
  rcases Nat.lt_or_ge k 5 with hk5 | hk5
  · obtain ⟨j1, rfl⟩ : ∃ j, k = j + 1 := ⟨k - 1, by omega⟩
    rw [hL, List.drop_succ_cons, this_cons] at heq
    rcases j1 with _ | j2
    · rw [List.drop_zero, List.cons_append] at heq
      injection heq with h1 _
      exact absurd h1 (by decide)
    · rw [List.drop_succ_cons] at heq
      rcases j2 with _ | j3
      · rw [List.drop_zero, List.cons_append] at heq
        injection heq with h1 _
        exact absurd h1 (by decide)
      · rw [List.drop_succ_cons] at heq
        rcases j3 with _ | j4
        · rw [List.drop_zero, List.cons_append] at heq
          injection heq with h1 _
          exact absurd h1 (by decide)
        · rw [List.drop_succ_cons] at heq
          rcases j4 with _ | j5
          · rw [List.drop_zero, List.cons_append] at heq
            injection heq with h1 _
            exact absurd h1 (by decide)
          · omega
  · have hlen : ("this.".data ++ w ++ [z] : List Char).length = w.length + 6 := by
      simp
    have hj : k - 5 ≤ w.length := by omega
    have e1 : ("this.".data ++ w ++ [z]).drop k = (w ++ [z]).drop (k - 5) := by
      rw [List.append_assoc, List.drop_append_eq_append_drop,
        List.drop_eq_nil_of_le (by rw [show ("this.".data : List Char).length = 5 from rfl]; omega)]
      rw [show ("this.".data : List Char).length = 5 from rfl, List.nil_append]
    have e2 : (w ++ [z]).drop (k - 5) = w.drop (k - 5) ++ [z] := by
      rw [List.drop_append_eq_append_drop, Nat.sub_eq_zero_of_le hj, List.drop_zero]
    have hdotu : '.' ∉ w.drop (k - 5) := fun hmem => hdot (List.drop_subset _ _ hmem)
    rw [e1, e2, this_cons, List.append_assoc, List.singleton_append] at heq
    rcases hu : w.drop (k - 5) with _ | ⟨a1, _ | ⟨a2, _ | ⟨a3, _ | ⟨a4, _ | ⟨a5, u5⟩⟩⟩⟩⟩ <;>
      rw [hu] at heq hdotu
    · rw [List.nil_append] at heq
      injection heq with h1 _
      exact absurd hq (by rw [h1]; decide)
    · simp only [List.cons_append, List.nil_append, List.cons.injEq] at heq
      obtain ⟨_, h2, _⟩ := heq
      exact absurd hq (by rw [h2]; decide)
    · simp only [List.cons_append, List.nil_append, List.cons.injEq] at heq
      obtain ⟨_, _, h3, _⟩ := heq
      exact absurd hq (by rw [h3]; decide)
    · simp only [List.cons_append, List.nil_append, List.cons.injEq] at heq
      obtain ⟨_, _, _, h4, _⟩ := heq
      exact absurd hq (by rw [h4]; decide)
    · simp only [List.cons_append, List.nil_append, List.cons.injEq] at heq
      obtain ⟨_, _, _, _, h5, _⟩ := heq
      exact absurd hq (by rw [h5]; decide)
    · simp only [List.cons_append, List.cons.injEq] at heq
      obtain ⟨_, _, _, _, h5, _⟩ := heq
      exact hdotu (by rw [h5]; simp)

/-- Helper: positions where no port match can begin contribute nothing to
the per-position collection. -/
lemma portNamesAll_skip {m : List Char} :
    ∀ (u tail : List Char),
      (∀ k, k < u.length → matchPortAt m (u.drop k ++ tail) = none) →
      portNamesAll m (u ++ tail) = portNamesAll m tail := by
  intro u
  induction u with
  | nil => intro tail _; rw [List.nil_append]
  | cons c u1 ih =>
    intro tail hno
    have h0 : matchPortAt m (c :: (u1 ++ tail)) = none := by
      have h := hno 0 (by simp)
      rw [List.drop_zero, List.cons_append] at h
      exact h
    rw [List.cons_append]
    simp only [portNamesAll, h0]
    refine ih tail (fun k hk => ?_)
    have h := hno (k + 1) (by simp only [List.length_cons]; omega)
    rw [List.drop_succ_cons] at h
    exact h

/-- Helper: the findall scan of the port pattern agrees with the
per-position collection — the matched spans cannot overlap, since no proper
suffix of a span begins with `this.`. -/
lemma portsF_eq_all {m : List Char} (hmdot : '.' ∉ m) :
    ∀ (fuel : Nat) (s : List Char), s.length ≤ fuel →
      portsF m fuel s = portNamesAll m s := by
  intro fuel
  induction fuel with
  | zero =>
    intro s hs
    cases s with
    | nil => rfl
    | cons c rest => simp at hs
  | succ n ih =>
    intro s hs
    cases s with
    | nil => rfl
    | cons c rest =>
      cases hm : matchPortAt m (c :: rest) with
      | none =>
        simp only [portsF, portNamesAll, hm]
        exact ih rest (by simp only [List.length_cons] at hs; omega)
      | some t =>
        obtain ⟨nm, after⟩ := t
        obtain ⟨w1, w2, q1, q2, hshape, hw1, hw2, hq1, hq2, hnm, hword⟩ :=
          matchPortAt_some hm
        obtain ⟨W, hWdef⟩ :
            ∃ u, m ++ "(\x7b".data ++ w1 ++ "name:".data ++ w2 ++ q1 :: nm = u :=
          ⟨_, rfl⟩
        have hWdot : '.' ∉ W := by
          rw [← hWdef]
          intro hmem
          simp only [List.mem_append, List.mem_cons] at hmem
          rcases hmem with ((((hm1 | hm1) | hm1) | hm1) | hm1) | hm1 | hm1
          · exact hmdot hm1
          · exact absurd hm1 (by decide)
          · exact absurd (hw1 '.' hm1) (by decide)
          · exact absurd hm1 (by decide)
          · exact absurd (hw2 '.' hm1) (by decide)
          · exact (isQuote_props hq1).2.2 hm1.symm
          · exact absurd (hword '.' hm1) (by decide)
        have hcons : c :: rest =
            't' :: (('h' :: 'i' :: 's' :: '.' :: (W ++ [q2])) ++ after) := by
          rw [hshape, ← hWdef]
          simp [portLit, List.append_assoc]
        injection hcons with hc hrest
        have hul : ('h' :: 'i' :: 's' :: '.' :: (W ++ [q2]) : List Char).length =
            W.length + 5 := by simp
        have hLl : ("this.".data ++ W ++ [q2] : List Char).length = W.length + 6 := by
          simp
        have hskip : ∀ k, k < ('h' :: 'i' :: 's' :: '.' :: (W ++ [q2]) : List Char).length →
            matchPortAt m (('h' :: 'i' :: 's' :: '.' :: (W ++ [q2])).drop k ++ after) =
              none := by
          intro k hk
          apply matchPortAt_none_of_no_this
          intro r heq
          have hdropL : ("this.".data ++ W ++ [q2]).drop (k + 1) =
              ('h' :: 'i' :: 's' :: '.' :: (W ++ [q2])).drop k := by
            rw [show ("this.".data ++ W ++ [q2] : List Char) =
              't' :: ('h' :: 'i' :: 's' :: '.' :: (W ++ [q2])) from rfl,
              List.drop_succ_cons]
          refine no_this_inside hWdot hq2 (k + 1) after r (by omega) (by omega) ?_
          rw [hdropL]
          exact heq
        have hafter : after.length ≤ n := by
          have hr : rest.length = W.length + 5 + after.length := by
            rw [hrest]
            simp only [List.length_append, hul]
          simp only [List.length_cons] at hs
          omega
        simp only [portsF, portNamesAll, hm]
        rw [ih after hafter, hrest,
          portNamesAll_skip ('h' :: 'i' :: 's' :: '.' :: (W ++ [q2])) after hskip]

/-- Helper: the port matcher accepts every text of the decomposed shape. -/
lemma matchPortAt_of_parts (m w1 w2 : List Char) (q1 q2 : Char) (nm rest : List Char)
    (hw1 : ∀ c ∈ w1, isSpaceCh c = true) (hw2 : ∀ c ∈ w2, isSpaceCh c = true)
    (hq1 : isQuote q1 = true) (hq2 : isQuote q2 = true)
    (hnm : nm ≠ []) (hword : ∀ c ∈ nm, isW c = true) :
    matchPortAt m
      (portLit m ++ w1 ++ "name:".data ++ w2 ++ q1 :: (nm ++ q2 :: rest)) =
      some (nm, rest) := by
  have hassoc : portLit m ++ w1 ++ "name:".data ++ w2 ++ q1 :: (nm ++ q2 :: rest) =
      portLit m ++ (w1 ++ ("name:".data ++ (w2 ++ q1 :: (nm ++ q2 :: rest)))) := by
    simp [List.append_assoc]
  rw [hassoc]
  have hd : dropLit (portLit m)
      (portLit m ++ (w1 ++ ("name:".data ++ (w2 ++ q1 :: (nm ++ q2 :: rest))))) =
      some (w1 ++ ("name:".data ++ (w2 ++ q1 :: (nm ++ q2 :: rest)))) :=
    dropLit_eq_some.mpr rfl
  have hdw1 : (w1 ++ ("name:".data ++ (w2 ++ q1 :: (nm ++ q2 :: rest)))).dropWhile
      isSpaceCh = "name:".data ++ (w2 ++ q1 :: (nm ++ q2 :: rest)) := by
    rw [show ("name:".data ++ (w2 ++ q1 :: (nm ++ q2 :: rest)) : List Char) =
      'n' :: ("ame:".data ++ (w2 ++ q1 :: (nm ++ q2 :: rest))) from rfl]
    exact (takeWhile_middle isSpaceCh w1 'n'
      ("ame:".data ++ (w2 ++ q1 :: (nm ++ q2 :: rest))) hw1 (by decide)).2
  have hd2 : dropLit "name:".data
      ("name:".data ++ (w2 ++ q1 :: (nm ++ q2 :: rest))) =
      some (w2 ++ q1 :: (nm ++ q2 :: rest)) := dropLit_eq_some.mpr rfl
  have hdw2 : (w2 ++ q1 :: (nm ++ q2 :: rest)).dropWhile isSpaceCh =
      q1 :: (nm ++ q2 :: rest) :=
    (takeWhile_middle isSpaceCh w2 q1 (nm ++ q2 :: rest) hw2 (isQuote_props hq1).1).2
  have htw3 := takeWhile_middle isW nm q2 rest hword (isQuote_props hq2).2.1
  simp only [matchPortAt]
  split
  · rename_i heq
    rw [hd] at heq
    exact Option.noConfusion heq
  · rename_i r1 heq
    rw [hd] at heq
    injection heq with h1
    subst h1
    split
    · rename_i heq2
      rw [hdw1, hd2] at heq2
      exact Option.noConfusion heq2
    · rename_i r3 heq2
      rw [hdw1, hd2] at heq2
      injection heq2 with h2
      subst h2
      split
      · rename_i heq3
        rw [hdw2] at heq3
        exact List.noConfusion heq3
      · rename_i q1a r5 heq3
        rw [hdw2] at heq3
        injection heq3 with hq1e hr5
        subst hq1e
        subst hr5
        rw [if_pos hq1, htw3.1, if_neg hnm]
        split
        · rename_i heq4
          rw [htw3.2] at heq4
          exact List.noConfusion heq4
        · rename_i q2a r7 heq4
          rw [htw3.2] at heq4
          injection heq4 with hq2e hr7
          subst hq2e
          subst hr7
          rw [if_pos hq2]

/-- C6: the Port Extractor's contract.  The extractor returns, for every
position of the text in first-seen order with duplicates retained, the name
captured by a port-pattern match beginning there; and a match beginning at a
position is exactly an object literal whose first field is a quoted `name`
immediately following the category's call syntax. -/
theorem c6_port_extractor (content method : String) (s nm : List Char)
    (hm : method = "addInput" ∨ method = "addOutput") :
    extract_port_names content method =
      (portNamesAll method.data content.data).map (fun l => String.mk l) ∧
    ((∃ after, matchPortAt method.data s = some (nm, after)) ↔
      PortCallAt method.data s nm) := by
  have hmdot : '.' ∉ method.data := by
    rcases hm with rfl | rfl <;> decide
  constructor
  · unfold extract_port_names
    rw [portsF_eq_all hmdot content.data.length content.data (le_refl _)]
  · constructor
    · rintro ⟨after, hma⟩
      obtain ⟨w1, w2, q1, q2, hshape, hw1, hw2, hq1, hq2, hnm, hword⟩ :=
        matchPortAt_some hma
      exact ⟨w1, w2, q1, q2, after, hshape, hw1, hw2, hq1, hq2, hnm, hword⟩
    · rintro ⟨w1, w2, q1, q2, rest, hshape, hw1, hw2, hq1, hq2, hnm, hword⟩
      refine ⟨rest, ?_⟩
      rw [hshape]
      exact matchPortAt_of_parts method.data w1 w2 q1 q2 nm rest hw1 hw2 hq1 hq2
        hnm hword

/-- Witness for C6: the contract at a concrete file with two calls capturing
the same name, and the matcher characterization at a concrete call text. -/
theorem c6_witness :
    extract_port_names
        "this.addInput(\x7b name: 'a' \x7d); this.addInput(\x7bname: 'a'\x7d);"
        "addInput" =
      (portNamesAll "addInput".data
        "this.addInput(\x7b name: 'a' \x7d); this.addInput(\x7bname: 'a'\x7d);".data).map
        (fun l => String.mk l) ∧
    ((∃ after, matchPortAt "addInput".data "this.addInput(\x7bname: 'x'\x7d)".data =
        some ("x".data, after)) ↔
      PortCallAt "addInput".data "this.addInput(\x7bname: 'x'\x7d)".data "x".data) :=
  c6_port_extractor
    "this.addInput(\x7b name: 'a' \x7d); this.addInput(\x7bname: 'a'\x7d);"
    "addInput" "this.addInput(\x7bname: 'x'\x7d)".data "x".data (Or.inl rfl)
